import Mathlib

/-!
Verification of the uamp-js envelope-authentication core (src/index.ts).

The development shallowly embeds the three core operations of the SDK:

* `canonicalJson` (index.ts lines 69-75): the source computes
  `JSON.stringify(obj, Object.keys(obj).sort())`.  Per ECMA-262, a second
  argument of array type is a `PropertyList` (replacer array): at EVERY object
  nesting level only the properties whose names occur in that list are
  serialized, in the order of the list; array elements are always serialized;
  `NaN`/`Infinity` serialize as `null`.  The embedding factors this as
  `serPlain (applyReplacer props v)` where `applyReplacer` performs the
  member selection/ordering of the PropertyList and `serPlain` is ordinary
  JSON serialization without insignificant whitespace.
* `signEnvelope` (index.ts lines 77-80) and `verifyEnvelopeSignature`
  (index.ts lines 82-93), over an idealized model of the external
  cryptographic provider (the `jose` library and node `crypto`), which the
  specification treats as an external collaborator.

JavaScript data is modelled by `JsVal`; JS object key order is the list
order; JS strings are compared by code units, modelled by `lexLe` over the
character lists (identical for the basic plane, which covers all envelope
keys).  JS objects cannot carry duplicate keys, so where a statement needs
it we carry a `Nodup` hypothesis on the key list.
-/

/-- Model of a JavaScript value as passed to `JSON.stringify`: null, a
non-finite number (`NaN`/`Infinity`, which stringify renders as `null`),
booleans, (integral) finite numbers, strings, arrays and objects.  Object
fields are kept in insertion order. -/
inductive JsVal where
  | jnull
  | jnonfinite
  | jbool (b : Bool)
  | jnum (n : Int)
  | jstr (s : String)
  | jarr (elems : List JsVal)
  | jobj (fields : List (String × JsVal))

/-- Lexicographic code-unit comparison of character lists, the comparison the
default `Array.prototype.sort` comparator applies to strings. -/
def lexLe : List Char → List Char → Bool
  | [], _ => true
  | _ :: _, [] => false
  | a :: as, b :: bs =>
    if a < b then true
    else if b < a then false
    else lexLe as bs

/-- String comparison used by `Object.keys(obj).sort()`. -/
def strLe (a b : String) : Bool := lexLe a.toList b.toList
/-- Model of `Object.keys(obj).sort()` (index.ts line 74): the key list sorted
by the default string comparator.  Insertion sort computes the same sorted
list as any comparison sort. -/
def sortKeys (ks : List String) : List String :=
  List.insertionSort (fun a b => strLe a b = true) ks

/-- Hexadecimal digit for JSON control-character escapes. -/
def hexDigit (n : Nat) : Char :=
  if n < 10 then Char.ofNat (48 + n) else Char.ofNat (87 + n)

/-- Escape of a single character inside a JSON string literal, as produced by
`JSON.stringify` (ECMA-262 QuoteJSONString). -/
def jescape (c : Char) : String :=
  if c = Char.ofNat 34 then "\\\""
  else if c = Char.ofNat 92 then "\\\\"
  else if c = Char.ofNat 8 then "\\b"
  else if c = Char.ofNat 9 then "\\t"
  else if c = Char.ofNat 10 then "\\n"
  else if c = Char.ofNat 12 then "\\f"
  else if c = Char.ofNat 13 then "\\r"
  else if c.toNat < 32 then
    "\\u00" ++ String.mk [hexDigit (c.toNat / 16), hexDigit (c.toNat % 16)]
  else String.singleton c

/-- Quoted JSON string literal. -/
def jquote (s : String) : String :=
  "\"" ++ String.join (s.toList.map jescape) ++ "\""

mutual

/-- Plain JSON serialization without insignificant whitespace, exactly the
output format of `JSON.stringify` once member selection has been applied:
object members in list order, array elements in order, `NaN`/`Infinity`
rendered as `null`. -/
def serPlain : JsVal → String
  | .jnull => "null"
  | .jnonfinite => "null"
  | .jbool true => "true"
  | .jbool false => "false"
  | .jnum n => toString n
  | .jstr s => jquote s
  | .jarr xs => "[" ++ String.intercalate "," (serPlainList xs) ++ "]"
  | .jobj fs => "\x7b" ++ String.intercalate "," (serPlainFields fs) ++ "\x7d"

/-- Serialized array elements. -/
def serPlainList : List JsVal → List String
  | [] => []
  | x :: xs => serPlain x :: serPlainList xs

/-- Serialized object members (`"key":value` pieces). -/
def serPlainFields : List (String × JsVal) → List String
  | [] => []
  | p :: rest => (jquote p.1 ++ ":" ++ serPlain p.2) :: serPlainFields rest

end

/-- Member selection of a PropertyList: for each name in `props` (in order)
that is present in the field list, the corresponding member. -/
def reorder (props : List String) (l : List (String × JsVal)) : List (String × JsVal) :=
  props.filterMap fun k => (l.lookup k).map fun v => (k, v)

mutual

/-- Effect of the `JSON.stringify` replacer array (ECMA-262 PropertyList) on a
value: at every object, members are restricted to the names in `props` and
emitted in the order of `props`; arrays keep all elements; leaves unchanged. -/
def applyReplacer (props : List String) : JsVal → JsVal
  | .jnull => .jnull
  | .jnonfinite => .jnonfinite
  | .jbool b => .jbool b
  | .jnum n => .jnum n
  | .jstr s => .jstr s
  | .jarr xs => .jarr (applyReplacerList props xs)
  | .jobj fs => .jobj (reorder props (applyReplacerFields props fs))

/-- PropertyList filtering mapped over array elements. -/
def applyReplacerList (props : List String) : List JsVal → List JsVal
  | [] => []
  | x :: xs => applyReplacer props x :: applyReplacerList props xs

/-- PropertyList filtering mapped over the values of a field list. -/
def applyReplacerFields (props : List String) : List (String × JsVal) → List (String × JsVal)
  | [] => []
  | p :: rest => (p.1, applyReplacer props p.2) :: applyReplacerFields props rest

end

/-- Top-level key list of an object in insertion order (`Object.keys`). -/
def topKeys (fields : List (String × JsVal)) : List String := fields.map Prod.fst

/-- Model of `canonicalJson` (index.ts lines 69-75):
`JSON.stringify(obj, Object.keys(obj).sort())`.  The unsigned envelope is the
field list `fields` in insertion order; the result is the UTF-8 text of the
stringification (the `Buffer.from` wrapping is byte-transparent). -/
def canonicalJson (fields : List (String × JsVal)) : String :=
  serPlain (applyReplacer (sortKeys (topKeys fields)) (.jobj fields))

/-- Modelled from the spec: the secure digest function supplied by the
external cryptographic provider (spec section 6; node `createHash('sha256')`
in the source).  Idealized as collision-free, hence modelled by an injective
function of the canonical bytes; digest equality then coincides exactly with
byte equality, which is the only property the core uses. -/
def sha256hex (s : String) : String := s

/-- Modelled from the spec: an opaque private signing key handed out by the
external provider, identified by the key pair it belongs to. -/
structure PrivateKey where
  keyId : Nat
deriving DecidableEq

/-- Modelled from the spec: an opaque public key of a key pair. -/
structure PublicKey where
  keyId : Nat
deriving DecidableEq

/-- Modelled from the spec: `generateKeyPair('ES256')` of the external
provider (index.ts lines 65-67) produces a fresh matching key pair. -/
def generateKeyPairES256 (n : Nat) : PrivateKey × PublicKey := (⟨n⟩, ⟨n⟩)

/-- Modelled from the spec: a signed JWT as produced by
`new SignJWT({sha256}).setProtectedHeader({alg}).sign(key)` — a token whose
protected header records the algorithm, whose payload carries the `sha256`
claim, and which is bound to the signing key pair. -/
structure Jws where
  alg : String
  sha256 : String
  signerKeyId : Nat
deriving DecidableEq

/-- Algorithm allow-list passed to `jwtVerify` (index.ts line 88). -/
def allowedAlgs : List String := ["ES256", "EdDSA", "RS256"]

/-- Modelled from the spec: `jwtVerify(token, key, {algorithms})` of the
external provider — succeeds with the token payload exactly when the token
algorithm is in the allow-list and the cryptographic signature verifies under
the candidate key (idealized: no forgery and no cross-key verification);
otherwise it throws, modelled as `none`. -/
def jwtVerify (tok : Jws) (key : PublicKey) (algorithms : List String) : Option String :=
  if tok.alg ∈ algorithms ∧ tok.signerKeyId = key.keyId then some tok.sha256 else none

/-- Model of `signEnvelope` (index.ts lines 77-80): hash the canonical bytes
of the unsigned envelope and sign a JWT carrying the digest under ES256. -/
def signEnvelope (fields : List (String × JsVal)) (key : PrivateKey) : Jws :=
  { alg := "ES256", sha256 := sha256hex (canonicalJson fields), signerKeyId := key.keyId }

/-- Model of the TS `Envelope` in the state verification receives it: the
destructuring `const {sig, ...unsigned} = env` splits the envelope into its
non-signature fields (insertion order preserved) and the `sig` property,
which is absent (`none`) when the envelope carries no signature. -/
structure Envelope where
  fields : List (String × JsVal)
  sig : Option Jws

/-- Body of the candidate loop (index.ts lines 86-91): one key is accepted
when `jwtVerify` succeeds for it AND the embedded digest equals the expected
digest; a thrown error (missing or invalid token, wrong key, disallowed
algorithm) makes the attempt fail and the loop move on. -/
def tryKey (sig : Option Jws) (expected : String) (key : PublicKey) : Bool :=
  match sig with
  | none => false
  | some tok =>
    match jwtVerify tok key allowedAlgs with
    | none => false
    | some payloadSha => payloadSha = expected

/-- Candidate iteration of `verifyEnvelopeSignature`: keys are tried in the
order supplied; the first accepted key returns success; if no key is accepted
the single generic error is thrown (index.ts lines 86-92). -/
def verifyLoop (sig : Option Jws) (expected : String) : List PublicKey → Except String Unit
  | [] => .error "UAMP signature validation failed"
  | k :: rest => if tryKey sig expected k then .ok () else verifyLoop sig expected rest

/-- Model of `verifyEnvelopeSignature` (index.ts lines 82-93). -/
def verifyEnvelopeSignature (env : Envelope) (keys : List PublicKey) : Except String Unit :=
  verifyLoop env.sig (sha256hex (canonicalJson env.fields)) keys

mutual

/-- Deep removal of every object member (at any nesting depth) whose name is
not in `allowed`; used to state which nested properties the replacer array of
`canonicalJson` discards. -/
def prune (allowed : List String) : JsVal → JsVal
  | .jnull => .jnull
  | .jnonfinite => .jnonfinite
  | .jbool b => .jbool b
  | .jnum n => .jnum n
  | .jstr s => .jstr s
  | .jarr xs => .jarr (pruneList allowed xs)
  | .jobj fs => .jobj (pruneFields allowed fs)

/-- Deep member removal mapped over array elements. -/
def pruneList (allowed : List String) : List JsVal → List JsVal
  | [] => []
  | x :: xs => prune allowed x :: pruneList allowed xs

/-- Deep member removal over a field list: members with disallowed names are
dropped, the values of the remaining members are pruned recursively. -/
def pruneFields (allowed : List String) : List (String × JsVal) → List (String × JsVal)
  | [] => []
  | p :: rest =>
    if p.1 ∈ allowed then (p.1, prune allowed p.2) :: pruneFields allowed rest
    else pruneFields allowed rest

end

mutual

/-- Replacement of every non-finite number by `null`, at any depth; used to
state that `JSON.stringify` serializes `NaN`/`Infinity` exactly as `null`. -/
def nfToNull : JsVal → JsVal
  | .jnull => .jnull
  | .jnonfinite => .jnull
  | .jbool b => .jbool b
  | .jnum n => .jnum n
  | .jstr s => .jstr s
  | .jarr xs => .jarr (nfList xs)
  | .jobj fs => .jobj (nfFields fs)

/-- Non-finite replacement mapped over array elements. -/
def nfList : List JsVal → List JsVal
  | [] => []
  | x :: xs => nfToNull x :: nfList xs

/-- Non-finite replacement mapped over field values. -/
def nfFields : List (String × JsVal) → List (String × JsVal)
  | [] => []
  | p :: rest => (p.1, nfToNull p.2) :: nfFields rest

end

/-- Body object `{type: 'text/plain', content: 'ping'}` of the specification's
concrete scenario, in TS insertion order. -/
def bodyPing : JsVal := .jobj [("type", .jstr "text/plain"), ("content", .jstr "ping")]

/-- Same body with `content` mutated to `'pong'`. -/
def bodyPong : JsVal := .jobj [("type", .jstr "text/plain"), ("content", .jstr "pong")]

/-- Unsigned envelope of the specification's concrete scenario
(`{id, ts, from, to, intent, body: {type, content: 'ping'}}`), fields in the
insertion order the TS client uses. -/
def pingFields : List (String × JsVal) :=
  [("id", .jstr "urn:uuid:A"), ("ts", .jstr "2025-01-01T00:00:00.000Z"),
   ("from", .jstr "did:web:alice.example"), ("to", .jarr [.jstr "did:web:bob.example"]),
   ("intent", .jstr "ask"), ("body", bodyPing)]

/-- The same envelope after the nested field `body.content` is mutated from
`'ping'` to `'pong'`. -/
def pongFields : List (String × JsVal) :=
  [("id", .jstr "urn:uuid:A"), ("ts", .jstr "2025-01-01T00:00:00.000Z"),
   ("from", .jstr "did:web:alice.example"), ("to", .jarr [.jstr "did:web:bob.example"]),
   ("intent", .jstr "ask"), ("body", bodyPong)]

/-- Unsigned envelope carrying an extension map `ext = {trace: 'abc'}`. -/
def envExtA : List (String × JsVal) :=
  [("id", .jstr "urn:uuid:B"), ("ts", .jstr "2025-01-01T00:00:00.000Z"),
   ("from", .jstr "did:web:alice.example"), ("to", .jarr [.jstr "did:web:bob.example"]),
   ("intent", .jstr "inform"), ("body", bodyPing),
   ("ext", .jobj [("trace", .jstr "abc")])]

/-- The same envelope with the nested extension value `ext.trace` changed to
`'xyz'`. -/
def envExtB : List (String × JsVal) :=
  [("id", .jstr "urn:uuid:B"), ("ts", .jstr "2025-01-01T00:00:00.000Z"),
   ("from", .jstr "did:web:alice.example"), ("to", .jarr [.jstr "did:web:bob.example"]),
   ("intent", .jstr "inform"), ("body", bodyPing),
   ("ext", .jobj [("trace", .jstr "xyz")])]

/-- Envelope whose extension object reuses the top-level name `id` next to a
name `zz` that occurs nowhere at top level. -/
def envNestedId : List (String × JsVal) :=
  [("ext", .jobj [("id", .jstr "x"), ("zz", .jstr "y")]), ("id", .jstr "urn:1")]

/-- Token carrying the correct digest of `pingFields` but declaring the
symmetric algorithm HS256, which is outside the allow-list. -/
def hsToken : Jws :=
  { alg := "HS256", sha256 := sha256hex (canonicalJson pingFields), signerKeyId := 0 }

/-- Well-formed ES256 token of key pair 5 whose embedded digest is not the
digest of any envelope below: its signature validates under key 5 while the
digest comparison fails. -/
def strayToken : Jws := { alg := "ES256", sha256 := "deadbeef", signerKeyId := 5 }

/-- Envelope carrying `strayToken` as its signature. -/
def strayEnvelope : Envelope := { fields := [("id", JsVal.jstr "A")], sig := some strayToken }

theorem lexLe_nil_iff (as : List Char) : lexLe as [] = true ↔ as = [] := by
  cases as <;> simp [lexLe]

theorem lexLe_cons_iff (a b : Char) (as bs : List Char) :
    lexLe (a :: as) (b :: bs) = true ↔ (a < b ∨ (a = b ∧ lexLe as bs = true)) := by
  rcases lt_trichotomy a b with h | h | h
  · simp [lexLe, h]
  · subst h; simp [lexLe, lt_irrefl]
  · simp [lexLe, not_lt_of_gt h, h]
    intro hc
    exact absurd hc (ne_of_gt h)

theorem lexLe_total : ∀ as bs, lexLe as bs = true ∨ lexLe bs as = true := by
  intro as
  induction as with
  | nil => intro bs; left; rfl
  | cons a as ih =>
      intro bs
      cases bs with
      | nil => right; rfl
      | cons b bs =>
          rw [lexLe_cons_iff, lexLe_cons_iff]
          rcases lt_trichotomy a b with h | h | h
          · left; exact Or.inl h
          · subst h
            rcases ih bs with h2 | h2
            · exact Or.inl (Or.inr ⟨rfl, h2⟩)
            · exact Or.inr (Or.inr ⟨rfl, h2⟩)
          · right; exact Or.inl h

theorem lexLe_trans : ∀ as bs cs, lexLe as bs = true → lexLe bs cs = true →
    lexLe as cs = true := by
  intro as
  induction as with
  | nil => intro bs cs h1 h2; rfl
  | cons a as ih =>
      intro bs cs h1 h2
      cases bs with
      | nil => simp [lexLe] at h1
      | cons b bs =>
          cases cs with
          | nil => simp [lexLe_nil_iff] at h2
          | cons c cs =>
              rw [lexLe_cons_iff] at h1 h2 ⊢
              rcases h1 with h1 | ⟨rfl, h1⟩
              · rcases h2 with h2 | ⟨rfl, h2⟩
                · exact Or.inl (lt_trans h1 h2)
                · exact Or.inl h1
              · rcases h2 with h2 | ⟨rfl, h2⟩
                · exact Or.inl h2
                · exact Or.inr ⟨rfl, ih _ _ h1 h2⟩

theorem lexLe_antisymm : ∀ as bs, lexLe as bs = true → lexLe bs as = true → as = bs := by
  intro as
  induction as with
  | nil =>
      intro bs h1 h2
      rw [lexLe_nil_iff] at h2
      rw [h2]
  | cons a as ih =>
      intro bs h1 h2
      cases bs with
      | nil => simp [lexLe_nil_iff] at h1
      | cons b bs =>
          rw [lexLe_cons_iff] at h1 h2
          rcases h1 with h1 | ⟨rfl, h1⟩
          · rcases h2 with h2 | ⟨rfl, h2⟩
            · exact absurd h2 (not_lt_of_gt h1)
            · exact absurd h1 (lt_irrefl _)
          · rcases h2 with h2 | ⟨heq, h2⟩
            · exact absurd h2 (lt_irrefl _)
            · rw [ih bs h1 h2]

theorem strLe_total (a b : String) : strLe a b = true ∨ strLe b a = true := lexLe_total _ _

theorem strLe_trans {a b c : String} (h1 : strLe a b = true) (h2 : strLe b c = true) :
    strLe a c = true := lexLe_trans _ _ _ h1 h2

theorem strLe_antisymm {a b : String} (h1 : strLe a b = true) (h2 : strLe b a = true) :
    a = b := by
  have h := lexLe_antisymm _ _ h1 h2
  cases a; cases b
  simp only [String.toList] at h
  rw [h]

instance : IsTotal String (fun a b => strLe a b = true) := ⟨strLe_total⟩

instance : IsTrans String (fun a b => strLe a b = true) := ⟨fun _ _ _ => strLe_trans⟩

instance : IsAntisymm String (fun a b => strLe a b = true) := ⟨fun _ _ => strLe_antisymm⟩

theorem sortKeys_eq_of_perm {l1 l2 : List String} (h : l1.Perm l2) :
    sortKeys l1 = sortKeys l2 :=
  List.eq_of_perm_of_sorted
    ((List.perm_insertionSort _ l1).trans (h.trans (List.perm_insertionSort _ l2).symm))
    (List.sorted_insertionSort _ l1) (List.sorted_insertionSort _ l2)

theorem sortKeys_mem_iff {k : String} {l : List String} : k ∈ sortKeys l ↔ k ∈ l :=
  (List.perm_insertionSort _ l).mem_iff


theorem applyReplacerFields_eq (props : List String) :
    ∀ l, applyReplacerFields props l = l.map fun p => (p.1, applyReplacer props p.2) := by
  intro l
  induction l with
  | nil => rfl
  | cons p rest ih => simp only [applyReplacerFields, List.map_cons, ih]

theorem nfFields_eq : ∀ l, nfFields l = l.map fun p => (p.1, nfToNull p.2) := by
  intro l
  induction l with
  | nil => rfl
  | cons p rest ih => simp only [nfFields, List.map_cons, ih]

theorem topKeys_mapVal (f : JsVal → JsVal) (l : List (String × JsVal)) :
    topKeys (l.map fun p => (p.1, f p.2)) = topKeys l := by
  simp [topKeys]

theorem lookup_mapVal (f : JsVal → JsVal) :
    ∀ (l : List (String × JsVal)) (k : String),
      ((l.map fun p => (p.1, f p.2)).lookup k) = (l.lookup k).map f := by
  intro l
  induction l with
  | nil => intro k; rfl
  | cons p rest ih =>
      intro k
      simp only [List.map_cons, List.lookup]
      cases hb : k == p.1 <;> simp [ih]

theorem reorder_congr {props : List String} {l1 l2 : List (String × JsVal)}
    (h : ∀ k ∈ props, l1.lookup k = l2.lookup k) : reorder props l1 = reorder props l2 :=
  List.filterMap_congr fun k hk => by rw [h k hk]

theorem applyReplacer_jobj_congr (props : List String) {l1 l2 : List (String × JsVal)}
    (h : ∀ k ∈ props, l1.lookup k = l2.lookup k) :
    applyReplacer props (.jobj l1) = applyReplacer props (.jobj l2) := by
  simp only [applyReplacer]
  congr 1
  rw [applyReplacerFields_eq, applyReplacerFields_eq]
  exact reorder_congr fun k hk => by
    rw [lookup_mapVal, lookup_mapVal, h k hk]

theorem perm_lookup_eq {l1 l2 : List (String × JsVal)} (h : l1.Perm l2) :
    (l1.map Prod.fst).Nodup → ∀ a, l1.lookup a = l2.lookup a := by
  induction h with
  | nil => intro _ a; rfl
  | cons p hperm ih =>
      intro nd a
      simp only [List.map_cons, List.nodup_cons] at nd
      simp only [List.lookup]
      cases hb : a == p.1 with
      | true => rfl
      | false => exact ih nd.2 a
  | swap x y l =>
      intro nd a
      simp only [List.map_cons, List.nodup_cons, List.mem_cons] at nd
      have hne : y.1 ≠ x.1 := fun hc => nd.1 (Or.inl hc)
      simp only [List.lookup]
      cases hby : a == y.1 with
      | true =>
          have hay : a = y.1 := by simpa using hby
          have hbx : (a == x.1) = false := by
            simp only [beq_eq_false_iff_ne, ne_eq]
            rw [hay]
            exact hne
          rw [hbx]
      | false =>
          cases hbx : a == x.1 <;> rfl
  | trans h1 h2 ih1 ih2 =>
      intro nd a
      have nd2 := (h1.map Prod.fst).nodup_iff.mp nd
      rw [ih1 nd a, ih2 nd2 a]

theorem reorder_mapVal (props : List String) (f : JsVal → JsVal) (l : List (String × JsVal)) :
    reorder props (l.map fun p => (p.1, f p.2)) =
      (reorder props l).map fun p => (p.1, f p.2) := by
  simp only [reorder, List.map_filterMap]
  apply List.filterMap_congr
  intro k _
  rw [lookup_mapVal]
  cases l.lookup k <;> rfl

theorem lookup_filter_mem {props : List String} :
    ∀ (l : List (String × JsVal)) (k : String), k ∈ props →
      ((l.filter fun p => decide (p.1 ∈ props)).lookup k) = l.lookup k := by
  intro l
  induction l with
  | nil => intro k _; rfl
  | cons p rest ih =>
      intro k hk
      by_cases hp : p.1 ∈ props
      · rw [List.filter_cons_of_pos (by simpa using hp)]
        simp only [List.lookup]
        cases hb : k == p.1 with
        | true => rfl
        | false => exact ih k hk
      · rw [List.filter_cons_of_neg (by simpa using hp)]
        simp only [List.lookup]
        have hb : (k == p.1) = false := by
          simp only [beq_eq_false_iff_ne, ne_eq]
          intro hc
          exact hp (hc ▸ hk)
        rw [hb]
        exact ih k hk

theorem reorder_filter (props : List String) (l : List (String × JsVal)) :
    reorder props (l.filter fun p => decide (p.1 ∈ props)) = reorder props l :=
  reorder_congr fun k hk => lookup_filter_mem l k hk

mutual

theorem applyReplacer_prune (props : List String) :
    (v : JsVal) → applyReplacer props (prune props v) = applyReplacer props v
  | .jnull => rfl
  | .jnonfinite => rfl
  | .jbool _ => rfl
  | .jnum _ => rfl
  | .jstr _ => rfl
  | .jarr xs => by
      simp only [prune, applyReplacer]
      rw [applyReplacerList_prune props xs]
  | .jobj fs => by
      simp only [prune, applyReplacer]
      rw [applyReplacerFields_prune props fs, reorder_filter]

theorem applyReplacerList_prune (props : List String) :
    (xs : List JsVal) → applyReplacerList props (pruneList props xs) = applyReplacerList props xs
  | [] => rfl
  | x :: xs => by
      simp only [pruneList, applyReplacerList]
      rw [applyReplacer_prune props x, applyReplacerList_prune props xs]

theorem applyReplacerFields_prune (props : List String) :
    (fs : List (String × JsVal)) →
      applyReplacerFields props (pruneFields props fs) =
        (applyReplacerFields props fs).filter fun p => decide (p.1 ∈ props)
  | [] => rfl
  | p :: rest => by
      by_cases hp : p.1 ∈ props
      · simp only [pruneFields, if_pos hp, applyReplacerFields]
        rw [applyReplacer_prune props p.2, applyReplacerFields_prune props rest]
        rw [List.filter_cons_of_pos (by simpa using hp)]
      · simp only [pruneFields, if_neg hp, applyReplacerFields]
        rw [applyReplacerFields_prune props rest]
        rw [List.filter_cons_of_neg (by simpa using hp)]

end

mutual

theorem applyReplacer_nf (props : List String) :
    (v : JsVal) → applyReplacer props (nfToNull v) = nfToNull (applyReplacer props v)
  | .jnull => rfl
  | .jnonfinite => rfl
  | .jbool _ => rfl
  | .jnum _ => rfl
  | .jstr _ => rfl
  | .jarr xs => by
      simp only [nfToNull, applyReplacer]
      rw [applyReplacerList_nf props xs]
  | .jobj fs => by
      simp only [nfToNull, applyReplacer]
      rw [applyReplacerFields_nf props fs, nfFields_eq, reorder_mapVal, ← nfFields_eq]

theorem applyReplacerList_nf (props : List String) :
    (xs : List JsVal) → applyReplacerList props (nfList xs) = nfList (applyReplacerList props xs)
  | [] => rfl
  | x :: xs => by
      simp only [nfList, applyReplacerList]
      rw [applyReplacer_nf props x, applyReplacerList_nf props xs]

theorem applyReplacerFields_nf (props : List String) :
    (fs : List (String × JsVal)) →
      applyReplacerFields props (nfFields fs) = nfFields (applyReplacerFields props fs)
  | [] => rfl
  | p :: rest => by
      simp only [nfFields, applyReplacerFields]
      rw [applyReplacer_nf props p.2, applyReplacerFields_nf props rest]

end

mutual

theorem serPlain_nf : (v : JsVal) → serPlain (nfToNull v) = serPlain v
  | .jnull => rfl
  | .jnonfinite => rfl
  | .jbool true => rfl
  | .jbool false => rfl
  | .jnum _ => rfl
  | .jstr _ => rfl
  | .jarr xs => by
      simp only [nfToNull, serPlain]
      rw [serPlainList_nf xs]
  | .jobj fs => by
      simp only [nfToNull, serPlain]
      rw [serPlainFields_nf fs]

theorem serPlainList_nf : (xs : List JsVal) → serPlainList (nfList xs) = serPlainList xs
  | [] => rfl
  | x :: xs => by
      simp only [nfList, serPlainList]
      rw [serPlain_nf x, serPlainList_nf xs]

theorem serPlainFields_nf :
    (fs : List (String × JsVal)) → serPlainFields (nfFields fs) = serPlainFields fs
  | [] => rfl
  | p :: rest => by
      simp only [nfFields, serPlainFields]
      rw [serPlain_nf p.2, serPlainFields_nf rest]

end

/-- C1: the claim states that `canonicalJson` canonicalizes recursively, with
keys sorted at every nesting level, so that the canonical bytes determine the
entire nested structure.  The code refutes this: the sorted top-level key list
is passed to `JSON.stringify` as a replacer array, which drops every nested
property whose name is not a top-level key, so two envelopes whose extension
maps differ (`ext.trace = 'abc'` vs `'xyz'`) produce byte-identical canonical
output. -/
theorem C1_canonicalJson_not_recursive :
    envExtA ≠ envExtB ∧ canonicalJson envExtA = canonicalJson envExtB :=
  ⟨by simp [envExtA, envExtB], rfl⟩

/-- C2: the claim states that any post-signing mutation of a non-signature
field makes verification fail.  The code refutes this for nested fields: the
envelope is signed with `body.content = 'ping'`, the field is mutated to
`'pong'`, and verification with the signer's own public key still succeeds,
because the canonical bytes never contained `body.content`. -/
theorem C2_nested_mutation_passes_verification :
    pingFields ≠ pongFields ∧
    verifyEnvelopeSignature
      ⟨pongFields, some (signEnvelope pingFields (generateKeyPairES256 0).1)⟩
      [(generateKeyPairES256 0).2] = .ok () :=
  ⟨by simp [pingFields, pongFields, bodyPing, bodyPong], rfl⟩

/-- C3: the claim states that two envelopes differing in any single field,
including a nested body or extension value, canonicalize differently.  The
code refutes this: `pingFields` and `pongFields` differ exactly in
`body.content` yet have byte-identical canonical output. -/
theorem C3_nested_sensitivity_fails :
    pingFields ≠ pongFields ∧ canonicalJson pingFields = canonicalJson pongFields :=
  ⟨by simp [pingFields, pongFields, bodyPing, bodyPong], rfl⟩

/-- C4 counterexample: the claim says a missing signature fails with a
distinct `MissingSignature` error kind, before any key is tried.  In the code
every verification failure — missing signature or exhausted candidate keys —
throws the one generic error from the same `throw` site, so no distinct kind
exists: both failure modes produce the identical error value. -/
theorem C4_missing_signature_same_error :
    verifyEnvelopeSignature ⟨pingFields, none⟩ [PublicKey.mk 0] =
      .error "UAMP signature validation failed" ∧
    verifyEnvelopeSignature
        ⟨pingFields, some (signEnvelope pingFields (PrivateKey.mk 0))⟩ [PublicKey.mk 1] =
      .error "UAMP signature validation failed" :=
  ⟨rfl, rfl⟩

/-- C4 amended: an envelope whose signature field is absent always fails
verification, but with the single generic error used for every verification
failure (the candidate loop runs and every attempt fails because `jwtVerify`
rejects a missing token), not with a distinct `MissingSignature` kind. -/
theorem C4_missing_signature_rejected_generic (fields : List (String × JsVal))
    (keys : List PublicKey) :
    verifyEnvelopeSignature ⟨fields, none⟩ keys =
      .error "UAMP signature validation failed" := by
  induction keys with
  | nil => rfl
  | cons k rest ih =>
      simp only [verifyEnvelopeSignature, verifyLoop, tryKey] at ih ⊢
      exact ih

/-- C5: signing an unsigned envelope and verifying the result against any
candidate list that contains the public key of the signing pair succeeds. -/
theorem C5_sign_verify_roundtrip (fields : List (String × JsVal)) (n : Nat)
    (ks1 ks2 : List PublicKey) :
    verifyEnvelopeSignature
      ⟨fields, some (signEnvelope fields (generateKeyPairES256 n).1)⟩
      (ks1 ++ (generateKeyPairES256 n).2 :: ks2) = .ok () := by
  induction ks1 with
  | nil =>
      simp [verifyEnvelopeSignature, verifyLoop, tryKey, jwtVerify, signEnvelope,
        generateKeyPairES256, allowedAlgs]
  | cons k ks ih =>
      simp only [List.cons_append, verifyEnvelopeSignature, verifyLoop] at ih ⊢
      cases h : tryKey (some (signEnvelope fields (generateKeyPairES256 n).1))
          (sha256hex (canonicalJson fields)) k with
      | true => simp [h]
      | false => simp [h, ih]

/-- C6: the verifier tries the candidate keys exactly in the order supplied —
on a non-empty list it decides on the head first and otherwise recurses on the
tail (first conjunct); a key is accepted exactly when the token validates
cryptographically (allow-listed algorithm, matching key) AND the embedded
digest equals the recomputed digest (second conjunct); and when the signature
validates under a key but the digest does not match, verification continues
with the remaining candidates instead of succeeding or aborting (third
conjunct). -/
theorem C6_candidate_order_and_continue :
    (∀ (env : Envelope) (k : PublicKey) (rest : List PublicKey),
        verifyEnvelopeSignature env (k :: rest) =
          if tryKey env.sig (sha256hex (canonicalJson env.fields)) k then .ok ()
          else verifyEnvelopeSignature env rest) ∧
    (∀ (tok : Jws) (expected : String) (k : PublicKey),
        tryKey (some tok) expected k = true ↔
          (tok.alg ∈ allowedAlgs ∧ tok.signerKeyId = k.keyId ∧ tok.sha256 = expected)) ∧
    (∀ (env : Envelope) (tok : Jws) (k : PublicKey) (rest : List PublicKey),
        env.sig = some tok → tok.alg ∈ allowedAlgs → tok.signerKeyId = k.keyId →
        tok.sha256 ≠ sha256hex (canonicalJson env.fields) →
        verifyEnvelopeSignature env (k :: rest) = verifyEnvelopeSignature env rest) := by
  refine ⟨fun env k rest => rfl, ?_, ?_⟩
  · intro tok expected k
    by_cases h : tok.alg ∈ allowedAlgs ∧ tok.signerKeyId = k.keyId
    · simp [tryKey, jwtVerify, h, h.1, h.2]
    · simp only [tryKey, jwtVerify, if_neg h]
      constructor
      · intro hc; exact absurd hc (by simp)
      · intro hc; exact absurd ⟨hc.1, hc.2.1⟩ h
  · intro env tok k rest hsig halg hkid hne
    have hcond : tok.alg ∈ allowedAlgs ∧ tok.signerKeyId = k.keyId := ⟨halg, hkid⟩
    have hfalse : tryKey env.sig (sha256hex (canonicalJson env.fields)) k = false := by
      rw [hsig]
      simp only [tryKey, jwtVerify]
      rw [if_pos hcond]
      simp [hne]
    simp only [verifyEnvelopeSignature, verifyLoop, hfalse]
    rfl

/-- C6 witness: `strayToken` is a valid ES256 token of key pair 5 whose
digest does not match `strayEnvelope`; verification with key 5 first in the
list continues past it to the remaining candidates. -/
theorem C6_candidate_order_witness :
    strayEnvelope.sig = some strayToken ∧
    strayToken.alg ∈ allowedAlgs ∧
    strayToken.signerKeyId = (PublicKey.mk 5).keyId ∧
    strayToken.sha256 ≠ sha256hex (canonicalJson strayEnvelope.fields) ∧
    verifyEnvelopeSignature strayEnvelope [PublicKey.mk 5, PublicKey.mk 9] =
      verifyEnvelopeSignature strayEnvelope [PublicKey.mk 9] :=
  ⟨rfl, by decide, rfl, by decide,
   C6_candidate_order_and_continue.2.2 strayEnvelope strayToken (PublicKey.mk 5)
     [PublicKey.mk 9] rfl (by decide) rfl (by decide)⟩

/-- C7: the verifier only ever accepts tokens whose declared algorithm lies in
the fixed allow-list `['ES256', 'EdDSA', 'RS256']` (all asymmetric, containing
the elliptic-curve scheme ES256): the list is exactly that constant (first
conjuncts), and any envelope whose token declares an algorithm outside it is
rejected for every candidate key list. -/
theorem C7_algorithm_allowlist :
    "ES256" ∈ allowedAlgs ∧ allowedAlgs = ["ES256", "EdDSA", "RS256"] ∧
    (∀ (fields : List (String × JsVal)) (tok : Jws) (keys : List PublicKey),
        tok.alg ∉ allowedAlgs →
        verifyEnvelopeSignature ⟨fields, some tok⟩ keys =
          .error "UAMP signature validation failed") := by
  refine ⟨by simp [allowedAlgs], rfl, ?_⟩
  intro fields tok keys h
  induction keys with
  | nil => rfl
  | cons k rest ih =>
      have hfalse : tryKey (some tok) (sha256hex (canonicalJson fields)) k = false := by
        simp [tryKey, jwtVerify, h]
      simp only [verifyEnvelopeSignature, verifyLoop, hfalse] at ih ⊢
      exact ih

/-- C7 witness: a token carrying the correct digest of `pingFields` but
declaring HS256 (outside the allow-list) is rejected even under its own
key. -/
theorem C7_algorithm_allowlist_witness :
    hsToken.alg ∉ allowedAlgs ∧
    verifyEnvelopeSignature ⟨pingFields, some hsToken⟩ [PublicKey.mk 0] =
      .error "UAMP signature validation failed" :=
  ⟨by decide, C7_algorithm_allowlist.2.2 pingFields hsToken [PublicKey.mk 0] (by decide)⟩

/-- C8 counterexample: the claim says canonicalization fails with an
`EncodingError` when a field holds a non-finite number.  The code never
fails: `JSON.stringify` serializes `NaN`/`Infinity` as `null`, so an envelope
with a non-finite `delta_window` canonicalizes successfully — to the very
bytes an explicit `null` produces — instead of raising any error. -/
theorem C8_nonfinite_serializes_without_error :
    canonicalJson [("delta_window", JsVal.jnonfinite), ("id", JsVal.jstr "A")] =
      "\x7b\"delta_window\":null,\"id\":\"A\"\x7d" ∧
    canonicalJson [("delta_window", JsVal.jnonfinite), ("id", JsVal.jstr "A")] =
      canonicalJson [("delta_window", JsVal.jnull), ("id", JsVal.jstr "A")] :=
  ⟨rfl, rfl⟩

/-- C8 amended: canonicalization (and therefore signing) never fails on
non-finite numbers; replacing every non-finite number in an envelope by
`null`, at any nesting depth, leaves the canonical bytes and the produced
signature unchanged — the value is silently approximated as `null`, and no
`EncodingError` exists in the code. -/
theorem C8_nonfinite_serialized_as_null (fields : List (String × JsVal)) (key : PrivateKey) :
    canonicalJson (nfFields fields) = canonicalJson fields ∧
    signEnvelope (nfFields fields) key = signEnvelope fields key := by
  have h : canonicalJson (nfFields fields) = canonicalJson fields := by
    unfold canonicalJson
    have hk : topKeys (nfFields fields) = topKeys fields := by
      rw [nfFields_eq, topKeys_mapVal]
    rw [hk]
    have hobj : (JsVal.jobj (nfFields fields)) = nfToNull (.jobj fields) := rfl
    rw [hobj, applyReplacer_nf, serPlain_nf]
  exact ⟨h, by simp [signEnvelope, h]⟩

/-- C9: canonicalization is insertion-order independent — reordering the
top-level fields of an unsigned envelope (first conjunct), or the members of
a nested object value such as an extension map (second conjunct), yields
byte-identical canonical output. -/
theorem C9_canonicalJson_order_independent :
    (∀ l1 l2 : List (String × JsVal), l1.Perm l2 → (l1.map Prod.fst).Nodup →
        canonicalJson l1 = canonicalJson l2) ∧
    (∀ (pre post : List (String × JsVal)) (k : String)
        (inner1 inner2 : List (String × JsVal)),
        inner1.Perm inner2 → (inner1.map Prod.fst).Nodup →
        canonicalJson (pre ++ (k, .jobj inner1) :: post) =
          canonicalJson (pre ++ (k, .jobj inner2) :: post)) := by
  constructor
  · intro l1 l2 h nd
    unfold canonicalJson
    simp only [topKeys]
    rw [sortKeys_eq_of_perm (h.map Prod.fst)]
    exact congrArg serPlain
      (applyReplacer_jobj_congr _ fun a _ => perm_lookup_eq h nd a)
  · intro pre post k i1 i2 h nd
    unfold canonicalJson
    have hk : topKeys (pre ++ (k, JsVal.jobj i1) :: post) =
        topKeys (pre ++ (k, JsVal.jobj i2) :: post) := by
      simp [topKeys]
    rw [hk]
    refine congrArg serPlain ?_
    simp only [applyReplacer]
    refine congrArg JsVal.jobj (congrArg _ ?_)
    rw [applyReplacerFields_eq, applyReplacerFields_eq]
    have hmid : applyReplacer (sortKeys (topKeys (pre ++ (k, JsVal.jobj i2) :: post)))
          (JsVal.jobj i1) =
        applyReplacer (sortKeys (topKeys (pre ++ (k, JsVal.jobj i2) :: post)))
          (JsVal.jobj i2) :=
      applyReplacer_jobj_congr _ fun a _ => perm_lookup_eq h nd a
    simp [List.map_append, hmid]

/-- C9 witness: swapping two top-level fields, or the two members of a nested
extension object, leaves the canonical bytes unchanged. -/
theorem C9_order_independent_witness :
    canonicalJson [("b", JsVal.jnull), ("a", JsVal.jbool true)] =
      canonicalJson [("a", JsVal.jbool true), ("b", JsVal.jnull)] ∧
    canonicalJson
        [("ext", JsVal.jobj [("x", JsVal.jnull), ("y", JsVal.jbool true)]),
         ("id", JsVal.jstr "A")] =
      canonicalJson
        [("ext", JsVal.jobj [("y", JsVal.jbool true), ("x", JsVal.jnull)]),
         ("id", JsVal.jstr "A")] :=
  ⟨C9_canonicalJson_order_independent.1 _ _ (List.Perm.swap _ _ _) (by decide),
   C9_canonicalJson_order_independent.2 [] [("id", JsVal.jstr "A")] "ext" _ _
     (List.Perm.swap _ _ _) (by decide)⟩

/-- C10: the sorted top-level key list acts as a property whitelist at every
nesting level.  First conjunct: deep-deleting, from every nested object, all
members whose names are not top-level keys leaves the canonical bytes
unchanged — such members never reach the signed digest.  Second and third
conjuncts: concretely, a nested member named like the top-level key `id`
survives while its sibling `zz` is omitted, and the `body` object of the
specification's concrete envelope serializes as empty braces because `type`
and `content` are not top-level keys. -/
theorem C10_nested_keys_filtered_by_top_level :
    (∀ fields : List (String × JsVal),
        canonicalJson (fields.map fun p => (p.1, prune (sortKeys (topKeys fields)) p.2)) =
          canonicalJson fields) ∧
    canonicalJson envNestedId = "\x7b\"ext\":\x7b\"id\":\"x\"\x7d,\"id\":\"urn:1\"\x7d" ∧
    canonicalJson pingFields =
      "\x7b\"body\":\x7b\x7d,\"from\":\"did:web:alice.example\",\"id\":\"urn:uuid:A\",\"intent\":\"ask\",\"to\":[\"did:web:bob.example\"],\"ts\":\"2025-01-01T00:00:00.000Z\"\x7d" := by
  refine ⟨?_, rfl, rfl⟩
  intro fields
  unfold canonicalJson
  rw [topKeys_mapVal]
  refine congrArg serPlain ?_
  simp only [applyReplacer]
  refine congrArg JsVal.jobj (congrArg _ ?_)
  rw [applyReplacerFields_eq, applyReplacerFields_eq, List.map_map]
  apply List.map_congr_left
  intro p _
  simp only [Function.comp_apply]
  rw [applyReplacer_prune]
